import Mathlib

/-!
Verification development for the commitmonk recurring-commit scheduler.

The Go sources are shallowly embedded as pure Lean functions:

* `db.Task` becomes the `Task` structure;
* `scheduler.TaskRunner.loadTasks` becomes `mergeRecord` / `loadTasksMerge` /
  `loadTasksRun`, with the live schedule map embedded as an association list
  `List (Int × TaskState)` keyed by task ID;
* `scheduler.TaskRunner.processTasks` becomes `processTasks`, returning the
  updated schedule together with the list of tasks dispatched this tick;
* `scheduler.TaskRunner.executeTask` becomes `executeTask`, driven by an
  `Env` record holding the outcome of each collaborator call and producing
  the ordered list of collaborator events plus a final `Outcome`;
* `llm.Client.GenerateCommitMessage` becomes `generateCommitMessage`
  (the HTTP exchange abstracted to an `Option String` outcome);
* `git.RepoManager.Commit` becomes `commitFn` over an embedded worktree
  status, and `git.RepoManager.Push` becomes `pushRun`.

Wall-clock times are embedded as integers (nanoseconds); the Go
`time.ParseDuration` is external library code and is passed in as an
arbitrary `parse : String → Option Int` function, since the scheduler
depends on it only through success/failure and the parsed value.
-/

namespace Commitmonk

/-- Embeds `db.Task` (db/db.go): a repository task record. -/
structure Task where
  id : Int
  path : String
  every : String
  autoAdd : Bool
  autoPush : Bool
  staticMsg : String
  excludePatterns : String
deriving Repr, DecidableEq

/-! ### String helpers embedding the Go `strings.TrimSpace` / `strings.Trim` -/

/-- Drop characters satisfying `p` from both ends of a string
(the semantics of the Go `strings.Trim` with a cutset predicate). -/
def trimEndsBy (p : Char → Bool) (s : String) : String :=
  String.mk (((s.toList.dropWhile p).reverse.dropWhile p).reverse)

/-- Embeds `strings.TrimSpace`: strip surrounding whitespace. -/
def goTrimSpace (s : String) : String :=
  trimEndsBy Char.isWhitespace s

/-- The quote cutset used by
`llm.Client.GenerateCommitMessage`: double or single quote. -/
def isQuoteChar (c : Char) : Bool :=
  c = '"' || c = '\''

/-- Embeds the quote-trimming `strings.Trim` call: strip surrounding quote characters. -/
def goTrimQuotes (s : String) : String :=
  trimEndsBy isQuoteChar s

/-! ### LLM client (llm package) -/

/-- Embeds `llm.Client.GenerateCommitMessage`.  The HTTP exchange with the
chat-completions endpoint is abstracted to `api : Option String`:
`some content` when the request succeeds with a non-empty choice list whose
first message content is `content`; `none` for any upstream failure
(network error, non-200 status, decode failure, empty choices).  On
success the content is trimmed of surrounding whitespace, then of
surrounding quote characters, exactly as in the source. -/
def generateCommitMessage (apiKey : String) (api : Option String) :
    Except String String :=
  if apiKey = "" then
    .error "LLM API credentials not configured"
  else
    match api with
    | none => .error "upstream failure"
    | some content => .ok (goTrimQuotes (goTrimSpace content))

/-! ### Scheduler state (scheduler/scheduler.go) -/

/-- Embeds `scheduler.taskState`: a task record plus its next-run time. -/
structure TaskState where
  task : Task
  nextRun : Int
deriving Repr, DecidableEq

/-- Look up a task state by ID in the live-schedule association list
(the embedding of the Go map `r.tasks`). -/
def lookupTask (id : Int) : List (Int × TaskState) → Option TaskState
  | [] => none
  | (i, st) :: rest => if i = id then some st else lookupTask id rest

/-- Embeds the body of the per-record loop of `TaskRunner.loadTasks`:
if the ID of the record already has a live entry, replace the stored record
in place (keeping `nextRun`); otherwise parse its interval and, on
success, add a fresh entry with `nextRun = now + duration`; on parse
failure, skip the record (a warning is logged in the source). -/
def mergeRecord (now : Int) (parse : String → Option Int)
    (live : List (Int × TaskState)) (t : Task) : List (Int × TaskState) :=
  match lookupTask t.id live with
  | some _ =>
      live.map (fun p => if p.1 = t.id then (p.1, { p.2 with task := t }) else p)
  | none =>
      match parse t.every with
      | none => live
      | some d => live ++ [(t.id, ⟨t, now + d⟩)]

/-- Embeds the `currentTaskIDs` set of `TaskRunner.loadTasks`: whether a
key appears among the IDs of the current records. -/
def keyLive (records : List Task) (k : Int) : Bool :=
  records.any (fun t => t.id = k)

/-- Embeds the merge phase of `TaskRunner.loadTasks`: fold the per-record
loop over all records, then remove every live entry whose ID is absent
from the current record set. -/
def loadTasksMerge (now : Int) (parse : String → Option Int)
    (records : List Task) (live : List (Int × TaskState)) :
    List (Int × TaskState) :=
  (records.foldl (mergeRecord now parse) live).filter
    (fun p => keyLive records p.1)

/-- The mutable fields of `scheduler.TaskRunner` that `loadTasks` touches. -/
structure SchedulerState where
  tasks : List (Int × TaskState)
  lastCheck : Int
deriving Repr, DecidableEq

/-- Embeds `TaskRunner.loadTasks` end to end: the registry read outcome is
`registry` (`GetAllTasks`); on a read error the error is returned and the
runner state is untouched; on success the merge runs and `lastCheck` is
updated.  Returns the result of the call together with the runner state after
the call. -/
def loadTasksRun (now : Int) (parse : String → Option Int)
    (registry : Except String (List Task)) (s : SchedulerState) :
    Except String Unit × SchedulerState :=
  match registry with
  | .error e => (.error e, s)
  | .ok records => (.ok (), ⟨loadTasksMerge now parse records s.tasks, now⟩)

/-- Embeds `TaskRunner.processTasks`: for each live entry strictly past its
`nextRun` (`now.After(state.nextRun)`), dispatch its task (collected in the
second component, modelling `go r.executeTask(state.task)`) and re-parse
its interval: on parse failure drop the entry, otherwise advance
`nextRun := now + duration`.  Entries not yet due are kept unchanged. -/
def processTasks (now : Int) (parse : String → Option Int) :
    List (Int × TaskState) → List (Int × TaskState) × List Task
  | [] => ([], [])
  | (id, st) :: rest =>
      if st.nextRun < now then
        match parse st.task.every with
        | none =>
            ((processTasks now parse rest).1,
             st.task :: (processTasks now parse rest).2)
        | some d =>
            ((id, { st with nextRun := now + d }) :: (processTasks now parse rest).1,
             st.task :: (processTasks now parse rest).2)
      else
        ((id, st) :: (processTasks now parse rest).1,
         (processTasks now parse rest).2)

/-! ### Stop semantics (scheduler/scheduler.go, `Stop` and `run`) -/

/-- The one piece of `TaskRunner` state `Stop` touches: whether `stopCh`
has been closed. -/
structure StopState where
  stopClosed : Bool
deriving Repr, DecidableEq

/-- Go channel-close semantics: `close` on an already-closed channel
panics (`none`); otherwise the channel becomes closed. -/
def closeChan (closed : Bool) : Option Bool :=
  if closed then none else some true

/-- Embeds `TaskRunner.Stop`: `close(r.stopCh)`.  `none` models a panic. -/
def stop (r : StopState) : Option StopState :=
  match closeChan r.stopClosed with
  | none => none
  | some c => some { stopClosed := c }

/-- Embeds one iteration of the `select` in `TaskRunner.run`: with `stopCh`
closed the loop returns (`false`, no tick and no dispatch); otherwise the
ticker case runs (`true`). -/
def tickProceeds (r : StopState) : Bool :=
  !r.stopClosed

/-! ### Git worktree status and commit (git package, `RepoManager`) -/

/-- The go-git status codes used by the sources. -/
inductive GitCode where
  | unmodified
  | modified
  | added
  | deleted
  | untracked
  | renamed
  | copied
  | conflicted
deriving Repr, DecidableEq

/-- The status of one file: its staging-area code and its worktree code. -/
structure FileStatus where
  staging : GitCode
  worktree : GitCode
deriving Repr, DecidableEq

/-- The worktree status map returned by `wt.Status()`. -/
abbrev Status := List (String × FileStatus)

/-- Embeds `RepoManager.HasStagedChanges`: some file has a staging code
other than `Unmodified`. -/
def hasStagedChangesFn (st : Status) : Bool :=
  st.any (fun p => p.2.staging ≠ GitCode.unmodified)

/-- Embeds `RepoManager.HasChanges`: some file has a non-`Unmodified`
worktree or staging code. -/
def hasChangesFn (st : Status) : Bool :=
  st.any (fun p => p.2.worktree ≠ GitCode.unmodified ∨ p.2.staging ≠ GitCode.unmodified)

/-- The staging code a worktree change receives when staged. -/
def stagedCodeOf : GitCode → GitCode
  | .untracked => .added
  | c => c

/-- Models go-git `wt.AddGlob(".")`: stage every worktree change of every
file; files without worktree changes are untouched.  Note that it takes
no exclude patterns. -/
def addGlobAll (st : Status) : Status :=
  st.map (fun p =>
    if p.2.worktree = GitCode.unmodified then p
    else (p.1, ⟨stagedCodeOf p.2.worktree, GitCode.unmodified⟩))

/-- The files a commit of the current staging area includes: those whose
staging code is not `Unmodified`. -/
def stagedFiles (st : Status) : List String :=
  (st.filter (fun p => p.2.staging ≠ GitCode.unmodified)).map (fun p => p.1)

/-- Embeds `RepoManager.Commit`: if nothing is staged, first run
`wt.AddGlob(".")` (staging everything, with no exclude patterns), and
fail with "no staged changes to commit" only if nothing is staged even
after that; otherwise commit the staged set.  Returns the status the
commit was created from together with the list of files it includes. -/
def commitFn (st : Status) : Except String (Status × List String) :=
  if hasStagedChangesFn st then
    .ok (st, stagedFiles st)
  else
    let st2 := addGlobAll st
    if hasStagedChangesFn st2 then
      .ok (st2, stagedFiles st2)
    else
      .error "no staged changes to commit"

/-! ### Push (git package, `RepoManager.Push`) -/

/-- Outcome of the underlying `repo.Push` call: `none` is success,
`some .alreadyUpToDate` is the go-git `NoErrAlreadyUpToDate`, and
`some (.other m)` is any other error. -/
inductive PushErr where
  | alreadyUpToDate
  | other (msg : String)
deriving Repr, DecidableEq

/-- Embeds `RepoManager.Push`: resolve HEAD (may fail), push the current
branch, and treat `NoErrAlreadyUpToDate` as success
(`err != nil && err != git.NoErrAlreadyUpToDate`). -/
def pushRun (headRes : Except String String) (pushErr : Option PushErr) :
    Except String Unit :=
  match headRes with
  | .error e => .error ("failed to get HEAD: " ++ e)
  | .ok _ =>
      match pushErr with
      | some PushErr.alreadyUpToDate => .ok ()
      | some (PushErr.other m) => .error ("failed to push: " ++ m)
      | none => .ok ()

/-! ### Substring test embedding the Go `strings.Contains` -/

/-- Whether `pat` occurs at the head of `l`. -/
def leadMatch : List Char → List Char → Bool
  | [], _ => true
  | _ :: _, [] => false
  | a :: ps, b :: ls => a = b && leadMatch ps ls

/-- Embeds `strings.Contains s pat`. -/
def strContains (s pat : String) : Bool :=
  (List.range (s.toList.length + 1)).any
    (fun i => leadMatch pat.toList (s.toList.drop i))

/-! ### Execution pipeline (scheduler/scheduler.go, `TaskRunner.executeTask`) -/

/-- A collaborator call made by `executeTask`, in order of occurrence. -/
inductive Event where
  | evOpen
  | evHasChanges
  | evStage (excludePatterns : String)
  | evHasStaged
  | evGetDiff
  | evGenerate (diff : String)
  | evUseStatic (msg : String)
  | evCommit (msg : String)
  | evPush
deriving Repr, DecidableEq

/-- Final outcome of one `executeTask` run. -/
inductive Outcome where
  | openError
  | changesError
  | noChanges
  | stageError
  | stagedError
  | noStagedSkip
  | diffError
  | noMessage
  | commitNoStaged
  | commitError
  | pushFailed (msg : String)
  | success (msg : String) (pushed : Bool)
deriving Repr, DecidableEq

/-- Outcomes of the collaborator calls `executeTask` makes, fixed up
front: each field is what the corresponding call would return if made. -/
structure Env where
  openOk : Bool
  hasChangesRes : Except String Bool
  stageRes : Except String Unit
  hasStagedRes : Except String Bool
  diffRes : Except String String
  apiKey : String
  genApi : Option String
  commitRes : Except String Unit
  headRes : Except String String
  pushErr : Option PushErr

/-- Embeds the tail of `executeTask` from `repoManager.Commit(commitMsg)`
on: commit, classify a "no staged changes" error as benign, then push if
`AutoPush` is set. -/
def doCommit (task : Task) (env : Env) (evs : List Event) (msg : String) :
    List Event × Outcome :=
  let evs := evs ++ [Event.evCommit msg]
  match env.commitRes with
  | .error e =>
      if strContains e "no staged changes" then (evs, .commitNoStaged)
      else (evs, .commitError)
  | .ok _ =>
      if task.autoPush then
        match pushRun env.headRes env.pushErr with
        | .error _ => (evs ++ [Event.evPush], .pushFailed msg)
        | .ok _ => (evs ++ [Event.evPush], .success msg true)
      else (evs, .success msg false)

/-- Embeds `executeTask` from `repoManager.GetDiff()` on: get the diff,
resolve the commit message (LLM first whenever credentials are present,
static message as fallback or sole source, abort when neither yields a
message), then commit and push. -/
def afterStage (task : Task) (env : Env) (evs : List Event) :
    List Event × Outcome :=
  match env.diffRes with
  | .error _ => (evs ++ [Event.evGetDiff], .diffError)
  | .ok diff =>
      let evs := evs ++ [Event.evGetDiff]
      if env.apiKey ≠ "" then
        match generateCommitMessage env.apiKey env.genApi with
        | .ok m => doCommit task env (evs ++ [Event.evGenerate diff]) m
        | .error _ =>
            if task.staticMsg ≠ "" then
              doCommit task env
                (evs ++ [Event.evGenerate diff, Event.evUseStatic task.staticMsg])
                task.staticMsg
            else (evs ++ [Event.evGenerate diff], .noMessage)
      else
        if task.staticMsg ≠ "" then
          doCommit task env (evs ++ [Event.evUseStatic task.staticMsg]) task.staticMsg
        else (evs, .noMessage)

/-- Embeds `TaskRunner.executeTask`: open the repository, detect changes
(none → clean early return), stage (or require pre-staged changes when
`AutoAdd` is off), then hand over to `afterStage`. -/
def executeTask (task : Task) (env : Env) : List Event × Outcome :=
  if env.openOk = false then ([Event.evOpen], .openError)
  else
    let evs := [Event.evOpen, Event.evHasChanges]
    match env.hasChangesRes with
    | .error _ => (evs, .changesError)
    | .ok false => (evs, .noChanges)
    | .ok true =>
        if task.autoAdd then
          match env.stageRes with
          | .error _ => (evs ++ [Event.evStage task.excludePatterns], .stageError)
          | .ok _ => afterStage task env (evs ++ [Event.evStage task.excludePatterns])
        else
          match env.hasStagedRes with
          | .error _ => (evs ++ [Event.evHasStaged], .stagedError)
          | .ok false => (evs ++ [Event.evHasStaged], .noStagedSkip)
          | .ok true => afterStage task env (evs ++ [Event.evHasStaged])

/-! ### Helper lemmas on the live-schedule association list -/

theorem lookupTask_eq_none_of_not_key (id : Int) (l : List (Int × TaskState))
    (h : id ∉ l.map Prod.fst) : lookupTask id l = none := by
  induction l with
  | nil => rfl
  | cons p rest ih =>
      obtain ⟨i, s⟩ := p
      simp only [List.map_cons, List.mem_cons] at h
      push_neg at h
      simp only [lookupTask]
      rw [if_neg (fun he => h.1 he.symm)]
      exact ih h.2

theorem not_mem_of_lookupTask_eq_none (id : Int) (l : List (Int × TaskState))
    (h : lookupTask id l = none) : ∀ st, (id, st) ∉ l := by
  induction l with
  | nil => intro st hst; exact absurd hst (List.not_mem_nil _)
  | cons p rest ih =>
      obtain ⟨i, s⟩ := p
      intro st hst
      simp only [lookupTask] at h
      by_cases hi : i = id
      · rw [if_pos hi] at h
        exact Option.noConfusion h
      · rw [if_neg hi] at h
        rcases List.mem_cons.mp hst with heq | hmem
        · cases heq
          exact hi rfl
        · exact ih h st hmem

theorem mem_of_lookupTask_eq_some (id : Int) (st : TaskState)
    (l : List (Int × TaskState)) (h : lookupTask id l = some st) :
    (id, st) ∈ l := by
  induction l with
  | nil => exact Option.noConfusion h
  | cons p rest ih =>
      obtain ⟨i, s⟩ := p
      simp only [lookupTask] at h
      by_cases hi : i = id
      · rw [if_pos hi] at h
        cases hi
        cases h
        exact List.mem_cons_self _ _
      · rw [if_neg hi] at h
        exact List.mem_cons.mpr (Or.inr (ih h))

theorem lookupTask_append_single (id k : Int) (v : TaskState)
    (l : List (Int × TaskState)) :
    lookupTask id (l ++ [(k, v)]) =
      match lookupTask id l with
      | some st => some st
      | none => if k = id then some v else none := by
  induction l with
  | nil => rfl
  | cons p rest ih =>
      obtain ⟨i, s⟩ := p
      simp only [List.cons_append, List.append_eq, lookupTask]
      by_cases hi : i = id
      · rw [if_pos hi, if_pos hi]
      · rw [if_neg hi, if_neg hi, ih]

theorem lookupTask_map_update_ne (id tid : Int) (t : Task)
    (l : List (Int × TaskState)) (h : tid ≠ id) :
    lookupTask id
        (l.map (fun p => if p.1 = tid then (p.1, { p.2 with task := t }) else p)) =
      lookupTask id l := by
  induction l with
  | nil => rfl
  | cons p rest ih =>
      obtain ⟨i, s⟩ := p
      simp only [List.map_cons]
      by_cases hit : i = tid
      · rw [if_pos hit]
        have hne : i ≠ id := by rw [hit]; exact h
        simp only [lookupTask]
        rw [if_neg hne, if_neg hne]
        exact ih
      · rw [if_neg hit]
        simp only [lookupTask]
        by_cases hi : i = id
        · rw [if_pos hi, if_pos hi]
        · rw [if_neg hi, if_neg hi]
          exact ih

theorem lookupTask_map_update_eq (tid : Int) (t : Task)
    (l : List (Int × TaskState)) :
    lookupTask tid
        (l.map (fun p => if p.1 = tid then (p.1, { p.2 with task := t }) else p)) =
      Option.map (fun st => { st with task := t }) (lookupTask tid l) := by
  induction l with
  | nil => rfl
  | cons p rest ih =>
      obtain ⟨i, s⟩ := p
      simp only [List.map_cons]
      by_cases hit : i = tid
      · rw [if_pos hit]
        simp only [lookupTask]
        rw [if_pos hit, if_pos hit]
        rfl
      · rw [if_neg hit]
        simp only [lookupTask]
        rw [if_neg hit, if_neg hit]
        exact ih

theorem lookupTask_filter_key (q : Int → Bool) (id : Int)
    (l : List (Int × TaskState)) :
    lookupTask id (l.filter (fun p => q p.1)) =
      if q id then lookupTask id l else none := by
  induction l with
  | nil => simp [lookupTask]
  | cons p rest ih =>
      obtain ⟨i, s⟩ := p
      rw [List.filter_cons]
      by_cases hi : i = id
      · subst hi
        cases hq : q i with
        | true => simp [lookupTask, hq]
        | false => simp [lookupTask, hq, ih]
      · cases hq : q i with
        | true => simp [lookupTask, hq, hi, ih]
        | false => simp [lookupTask, hq, hi, ih]

theorem lookupTask_mergeRecord_ne (now : Int) (parse : String → Option Int)
    (live : List (Int × TaskState)) (t : Task) (id : Int) (h : t.id ≠ id) :
    lookupTask id (mergeRecord now parse live t) = lookupTask id live := by
  unfold mergeRecord
  cases hl : lookupTask t.id live with
  | some st => exact lookupTask_map_update_ne id t.id t live h
  | none =>
      cases hp : parse t.every with
      | none => rfl
      | some d =>
          rw [lookupTask_append_single]
          cases hid : lookupTask id live with
          | some st => rfl
          | none => exact if_neg h

theorem lookupTask_mergeRecord_self (now : Int) (parse : String → Option Int)
    (live : List (Int × TaskState)) (t : Task) :
    lookupTask t.id (mergeRecord now parse live t) =
      match lookupTask t.id live with
      | some st => some { st with task := t }
      | none =>
          match parse t.every with
          | none => none
          | some d => some ⟨t, now + d⟩ := by
  unfold mergeRecord
  cases hl : lookupTask t.id live with
  | some st =>
      rw [lookupTask_map_update_eq, hl]
      rfl
  | none =>
      cases hp : parse t.every with
      | none => exact hl
      | some d =>
          rw [lookupTask_append_single, hl, if_pos rfl]

theorem lookupTask_foldl_merge_ne (now : Int) (parse : String → Option Int)
    (records : List Task) (id : Int) (h : ∀ t ∈ records, t.id ≠ id) :
    ∀ live, lookupTask id (records.foldl (mergeRecord now parse) live) =
      lookupTask id live := by
  induction records with
  | nil => intro live; rfl
  | cons t rest ih =>
      intro live
      rw [List.foldl_cons,
          ih (fun t2 ht2 => h t2 (List.mem_cons_of_mem _ ht2)),
          lookupTask_mergeRecord_ne now parse live t id (h t (List.mem_cons_self _ _))]

theorem lookupTask_foldl_merge (now : Int) (parse : String → Option Int)
    (records : List Task) (r : Task) (hr : r ∈ records)
    (hnodup : (records.map Task.id).Nodup) :
    ∀ live, lookupTask r.id (records.foldl (mergeRecord now parse) live) =
      match lookupTask r.id live with
      | some st => some { st with task := r }
      | none =>
          match parse r.every with
          | none => none
          | some d => some ⟨r, now + d⟩ := by
  induction records with
  | nil => exact absurd hr (List.not_mem_nil _)
  | cons t rest ih =>
      intro live
      simp only [List.map_cons, List.nodup_cons] at hnodup
      rw [List.foldl_cons]
      rcases List.mem_cons.mp hr with heq | hmem
      · cases heq
        have hne : ∀ t2 ∈ rest, t2.id ≠ r.id := by
          intro t2 ht2 he
          exact hnodup.1 (he ▸ List.mem_map_of_mem Task.id ht2)
        rw [lookupTask_foldl_merge_ne now parse rest r.id hne
              (mergeRecord now parse live r),
            lookupTask_mergeRecord_self]
      · have ht_ne : t.id ≠ r.id := by
          intro he
          exact hnodup.1 (he ▸ List.mem_map_of_mem Task.id hmem)
        rw [ih hmem hnodup.2 (mergeRecord now parse live t),
            lookupTask_mergeRecord_ne now parse live t r.id ht_ne]

theorem lookupTask_loadTasksMerge_mem (now : Int) (parse : String → Option Int)
    (records : List Task) (live : List (Int × TaskState)) (r : Task)
    (hr : r ∈ records) (hnodup : (records.map Task.id).Nodup) :
    lookupTask r.id (loadTasksMerge now parse records live) =
      match lookupTask r.id live with
      | some st => some { st with task := r }
      | none =>
          match parse r.every with
          | none => none
          | some d => some ⟨r, now + d⟩ := by
  unfold loadTasksMerge
  rw [lookupTask_filter_key (keyLive records) r.id]
  have hq : keyLive records r.id = true := by
    unfold keyLive
    exact List.any_eq_true.mpr ⟨r, hr, by simp⟩
  rw [if_pos hq, lookupTask_foldl_merge now parse records r hr hnodup live]

theorem lookupTask_loadTasksMerge_absent (now : Int) (parse : String → Option Int)
    (records : List Task) (live : List (Int × TaskState)) (id : Int)
    (habs : ∀ t ∈ records, t.id ≠ id) :
    lookupTask id (loadTasksMerge now parse records live) = none := by
  unfold loadTasksMerge
  rw [lookupTask_filter_key (keyLive records) id]
  cases hq : keyLive records id with
  | false => simp
  | true =>
      exfalso
      rcases List.any_eq_true.mp hq with ⟨t, ht, he⟩
      exact habs t ht (by simpa using he)

theorem processTasks_dispatch (now : Int) (parse : String → Option Int)
    (l : List (Int × TaskState)) :
    (processTasks now parse l).2 =
      (l.filter (fun p => decide (p.2.nextRun < now))).map (fun p => p.2.task) := by
  induction l with
  | nil => rfl
  | cons p rest ih =>
      obtain ⟨i, s⟩ := p
      rw [List.filter_cons]
      by_cases hdue : s.nextRun < now
      · cases hp : parse s.task.every with
        | none => simp [processTasks, hdue, hp, ih]
        | some d => simp [processTasks, hdue, hp, ih]
      · simp [processTasks, hdue, ih]

theorem lookupTask_processTasks_not_key (now : Int) (parse : String → Option Int)
    (l : List (Int × TaskState)) (id : Int) (h : id ∉ l.map Prod.fst) :
    lookupTask id (processTasks now parse l).1 = none := by
  induction l with
  | nil => rfl
  | cons p rest ih =>
      obtain ⟨i, s⟩ := p
      simp only [List.map_cons, List.mem_cons] at h
      push_neg at h
      have hne : i ≠ id := fun he => h.1 he.symm
      by_cases hdue : s.nextRun < now
      · cases hp : parse s.task.every with
        | none =>
            simp only [processTasks, if_pos hdue, hp]
            exact ih h.2
        | some d =>
            simp only [processTasks, if_pos hdue, hp, lookupTask]
            rw [if_neg hne]
            exact ih h.2
      · simp only [processTasks, if_neg hdue, lookupTask]
        rw [if_neg hne]
        exact ih h.2

theorem lookupTask_processTasks (now : Int) (parse : String → Option Int)
    (l : List (Int × TaskState)) (id : Int) (st : TaskState)
    (hmem : (id, st) ∈ l) (hnodup : (l.map Prod.fst).Nodup) :
    lookupTask id (processTasks now parse l).1 =
      if st.nextRun < now then
        match parse st.task.every with
        | none => none
        | some d => some { st with nextRun := now + d }
      else some st := by
  induction l with
  | nil => exact absurd hmem (List.not_mem_nil _)
  | cons p rest ih =>
      obtain ⟨i, s⟩ := p
      simp only [List.map_cons, List.nodup_cons] at hnodup
      rcases List.mem_cons.mp hmem with heq | hmem2
      · cases heq
        by_cases hdue : st.nextRun < now
        · cases hp : parse st.task.every with
          | none =>
              simp only [processTasks, if_pos hdue, hp]
              exact lookupTask_processTasks_not_key now parse rest id hnodup.1
          | some d =>
              simp only [processTasks, if_pos hdue, hp, lookupTask]
              simp
        · simp only [processTasks, if_neg hdue, lookupTask]
          simp [hdue]
      · have hid : id ∈ rest.map Prod.fst := by
          have hmm := List.mem_map_of_mem Prod.fst hmem2
          simpa using hmm
        have hne : i ≠ id := fun he => hnodup.1 (he.symm ▸ hid)
        by_cases hdue2 : s.nextRun < now
        · cases hp : parse s.task.every with
          | none =>
              simp only [processTasks, if_pos hdue2, hp]
              exact ih hmem2 hnodup.2
          | some d =>
              simp only [processTasks, if_pos hdue2, hp, lookupTask]
              rw [if_neg hne]
              exact ih hmem2 hnodup.2
        · simp only [processTasks, if_neg hdue2, lookupTask]
          rw [if_neg hne]
          exact ih hmem2 hnodup.2

/-! ### Concrete fixtures used by witnesses and counterexamples -/

/-- A concrete task record used by witnesses. -/
def wTask : Task := ⟨2, "/w", "2m", true, true, "fallback", ""⟩

/-- A concrete live-schedule state used by witnesses. -/
def wState : TaskState := ⟨wTask, 3⟩

/-- A concrete task record used by the C2 counterexample. -/
def cexTask : Task := ⟨1, "/repo", "1m", true, false, "", ""⟩

/-- A schedule entry whose next-run time equals the current tick time. -/
def cexState : TaskState := ⟨cexTask, 5⟩

/-- A concrete collaborator environment used by witnesses. -/
def wEnv : Env :=
  { openOk := true
    hasChangesRes := .ok true
    stageRes := .ok ()
    hasStagedRes := .ok true
    diffRes := .ok "d"
    apiKey := "k"
    genApi := some " \"feat: x\" "
    commitRes := .ok ()
    headRes := .ok "refs/heads/main"
    pushErr := none }

/-- Environment variant: change detection reports no changes. -/
def wEnvNoChanges : Env := { wEnv with hasChangesRes := .ok false }

/-- Environment variant: no credentials, push reports already up to date. -/
def wEnvPush : Env :=
  { wEnv with apiKey := ""
              genApi := none
              pushErr := some PushErr.alreadyUpToDate }

/-! ### Claim theorems -/

/-- C6: if the registry read fails during reconciliation, the error is
returned to the caller and the runner state (live schedule map and
`lastCheck`) is left exactly as before the call: no entry is added,
mutated, or removed, so reconciliation never partially commits. -/
theorem c6_registry_error_no_mutation (now : Int) (parse : String → Option Int)
    (e : String) (s : SchedulerState) :
    loadTasksRun now parse (.error e) s = (.error e, s) := rfl

/-- C7: when change detection reports no modification (staged or
unstaged), the run ends cleanly after exactly the repository-open and
change-detection calls: no staging is performed, message resolution is
never invoked (no generation attempt and no static-message use), and no
commit is attempted. -/
theorem c7_no_changes_clean (task : Task) (env : Env)
    (hopen : env.openOk = true) (hch : env.hasChangesRes = .ok false) :
    executeTask task env = ([Event.evOpen, Event.evHasChanges], Outcome.noChanges) ∧
    (∀ p, Event.evStage p ∉ (executeTask task env).1) ∧
    (∀ d, Event.evGenerate d ∉ (executeTask task env).1) ∧
    (∀ m, Event.evUseStatic m ∉ (executeTask task env).1) ∧
    (∀ m, Event.evCommit m ∉ (executeTask task env).1) := by
  have h : executeTask task env =
      ([Event.evOpen, Event.evHasChanges], Outcome.noChanges) := by
    simp [executeTask, hopen, hch]
  refine ⟨h, ?_, ?_, ?_, ?_⟩ <;> intro x <;> rw [h] <;> simp

/-- Witness for C7 at a concrete task and environment. -/
theorem c7_no_changes_clean_witness :
    executeTask wTask wEnvNoChanges =
      ([Event.evOpen, Event.evHasChanges], Outcome.noChanges) :=
  (c7_no_changes_clean wTask wEnvNoChanges rfl rfl).1

/-- C8: the push operation treats the remote already being up to date as
success: `Push` returns no error when the underlying push reports
already-up-to-date, and an execution whose push ends that way finishes
as a successful run, not a failure. -/
theorem c8_push_already_up_to_date (task : Task) (env : Env) (head diff : String)
    (hhead : env.headRes = .ok head)
    (hpush : env.pushErr = some PushErr.alreadyUpToDate)
    (hopen : env.openOk = true) (hch : env.hasChangesRes = .ok true)
    (hadd : task.autoAdd = true) (hstage : env.stageRes = .ok ())
    (hdiff : env.diffRes = .ok diff)
    (hkey : env.apiKey = "") (hstatic : task.staticMsg ≠ "")
    (hcommit : env.commitRes = .ok ()) (hap : task.autoPush = true) :
    pushRun env.headRes env.pushErr = .ok () ∧
    (executeTask task env).2 = Outcome.success task.staticMsg true := by
  constructor
  · rw [hhead, hpush]
    rfl
  · simp [executeTask, afterStage, doCommit, pushRun, hopen, hch, hadd, hstage,
      hdiff, hkey, hstatic, hcommit, hap, hhead, hpush]

/-- Witness for C8 at a concrete task and environment. -/
theorem c8_push_already_up_to_date_witness :
    pushRun wEnvPush.headRes wEnvPush.pushErr = .ok () ∧
    (executeTask wTask wEnvPush).2 = Outcome.success "fallback" true := by
  have h := c8_push_already_up_to_date wTask wEnvPush "refs/heads/main" "d"
    rfl rfl rfl rfl rfl rfl rfl rfl (by decide) rfl rfl
  exact ⟨h.1, h.2⟩

/-- C10: `Stop` is not idempotent: the first call closes the stop channel
(after which the scheduler loop returns instead of ticking or
dispatching), but a second call panics by closing an already-closed
channel (modelled as `none`). -/
theorem c10_stop_not_idempotent (r : StopState) (h : r.stopClosed = false) :
    stop r = some ⟨true⟩ ∧ tickProceeds ⟨true⟩ = false ∧ stop ⟨true⟩ = none := by
  refine ⟨?_, rfl, rfl⟩
  simp [stop, closeChan, h]

/-- Witness for C10 at the freshly-started stop state. -/
theorem c10_stop_not_idempotent_witness :
    stop ⟨false⟩ = some ⟨true⟩ ∧ tickProceeds ⟨true⟩ = false ∧
    stop ⟨true⟩ = none :=
  c10_stop_not_idempotent ⟨false⟩ rfl

/-- C1: the message resolution decision matrix of `executeTask`, for every
combination of credentials, static message, and generation outcome:
with credentials, generation is attempted first even when a static
message is configured; on generation success the generated text, trimmed
of surrounding whitespace and quote characters, becomes the commit
message; on generation failure the non-empty static message is the
fallback, and with an empty one the run aborts with no commit; without
credentials the non-empty static message is used, and with an empty one
the run aborts with no commit.  The final conjunct records that every
resolved message is indeed the one handed to the commit step. -/
theorem c1_message_resolution_matrix (task : Task) (env : Env) (diff : String)
    (evs : List Event) (hdiff : env.diffRes = .ok diff) :
    (env.apiKey ≠ "" → ∀ raw, env.genApi = some raw →
       afterStage task env evs =
         doCommit task env (evs ++ [Event.evGetDiff, Event.evGenerate diff])
           (goTrimQuotes (goTrimSpace raw))) ∧
    (env.apiKey ≠ "" → env.genApi = none → task.staticMsg ≠ "" →
       afterStage task env evs =
         doCommit task env
           (evs ++ [Event.evGetDiff, Event.evGenerate diff,
                    Event.evUseStatic task.staticMsg])
           task.staticMsg) ∧
    (env.apiKey ≠ "" → env.genApi = none → task.staticMsg = "" →
       afterStage task env evs =
         (evs ++ [Event.evGetDiff, Event.evGenerate diff], Outcome.noMessage)) ∧
    (env.apiKey = "" → task.staticMsg ≠ "" →
       afterStage task env evs =
         doCommit task env
           (evs ++ [Event.evGetDiff, Event.evUseStatic task.staticMsg])
           task.staticMsg) ∧
    (env.apiKey = "" → task.staticMsg = "" →
       afterStage task env evs = (evs ++ [Event.evGetDiff], Outcome.noMessage)) ∧
    (∀ evs2 m, Event.evCommit m ∈ (doCommit task env evs2 m).1) := by
  refine ⟨?_, ?_, ?_, ?_, ?_, ?_⟩
  · intro hk raw hapi
    simp [afterStage, hdiff, hk, generateCommitMessage, hapi]
  · intro hk hapi hst
    simp [afterStage, hdiff, hk, generateCommitMessage, hapi, hst]
  · intro hk hapi hst
    simp [afterStage, hdiff, hk, generateCommitMessage, hapi, hst]
  · intro hk hst
    simp [afterStage, hdiff, hk, hst]
  · intro hk hst
    simp [afterStage, hdiff, hk, hst]
  · intro evs2 m
    unfold doCommit
    cases env.commitRes with
    | error e =>
        by_cases hc : strContains e "no staged changes" = true <;> simp [hc]
    | ok u =>
        by_cases hap : task.autoPush = true
        · cases hpr : pushRun env.headRes env.pushErr with
          | error e2 => simp [hap, hpr]
          | ok u2 => simp [hap, hpr]
        · simp [hap]

/-- Witness for C1: with credentials and a successful generation, the
resolved commit message is the trimmed generated text. -/
theorem c1_message_resolution_matrix_witness :
    afterStage wTask wEnv [] =
      doCommit wTask wEnv [Event.evGetDiff, Event.evGenerate "d"]
        (goTrimQuotes (goTrimSpace " \"feat: x\" ")) :=
  (c1_message_resolution_matrix wTask wEnv "d" [] rfl).1 (by decide) _ rfl

/-- The staging code assigned by `addGlobAll` to a changed file is never
`unmodified`. -/
theorem stagedCodeOf_ne_unmodified (c : GitCode) (h : c ≠ GitCode.unmodified) :
    stagedCodeOf c ≠ GitCode.unmodified := by
  cases c with
  | unmodified => exact absurd rfl h
  | modified => decide
  | added => decide
  | deleted => decide
  | untracked => decide
  | renamed => decide
  | copied => decide
  | conflicted => decide

/-- C9: when `Commit` is called with no staged changes present, it first
stages every change in the working tree via `AddGlob(".")` — which takes
no exclude patterns — and returns the "no staged changes to commit"
error exactly when nothing is staged even after that; consequently every
changed file, including any file matching an arbitrary exclude predicate,
is included in the commit created through this path. -/
theorem c9_commit_auto_stages (st : Status) (h : hasStagedChangesFn st = false) :
    (commitFn st = .error "no staged changes to commit" ↔
       hasStagedChangesFn (addGlobAll st) = false) ∧
    (∀ f fs, (f, fs) ∈ st → fs.worktree ≠ GitCode.unmodified →
       ∀ excludeMatch : String → Bool, excludeMatch f = true →
         ∃ res, commitFn st = .ok res ∧ f ∈ res.2) := by
  constructor
  · cases h2 : hasStagedChangesFn (addGlobAll st) with
    | true => simp [commitFn, h, h2]
    | false => simp [commitFn, h, h2]
  · intro f fs hmem hwt excludeMatch hex
    have hstaged : hasStagedChangesFn (addGlobAll st) = true := by
      unfold hasStagedChangesFn addGlobAll
      rw [List.any_eq_true]
      refine ⟨(f, ⟨stagedCodeOf fs.worktree, GitCode.unmodified⟩), ?_, ?_⟩
      · exact List.mem_map.mpr ⟨(f, fs), hmem, by simp [hwt]⟩
      · simpa using stagedCodeOf_ne_unmodified fs.worktree hwt
    refine ⟨(addGlobAll st, stagedFiles (addGlobAll st)), ?_, ?_⟩
    · simp [commitFn, h, hstaged]
    · unfold stagedFiles
      refine List.mem_map.mpr
        ⟨(f, ⟨stagedCodeOf fs.worktree, GitCode.unmodified⟩), ?_, rfl⟩
      refine List.mem_filter.mpr ⟨?_, ?_⟩
      · unfold addGlobAll
        exact List.mem_map.mpr ⟨(f, fs), hmem, by simp [hwt]⟩
      · simpa using stagedCodeOf_ne_unmodified fs.worktree hwt

/-- A worktree status with one unstaged modification to a file that a
typical exclude pattern would match. -/
def wStatus : Status := [("secret.key", ⟨GitCode.unmodified, GitCode.modified⟩)]

/-- Witness for C9: the excluded file ends up in the commit. -/
theorem c9_commit_auto_stages_witness :
    ∃ res, commitFn wStatus = .ok res ∧ "secret.key" ∈ res.2 :=
  (c9_commit_auto_stages wStatus (by decide)).2 "secret.key"
    ⟨GitCode.unmodified, GitCode.modified⟩ (by decide) (by decide)
    (fun f => true) rfl

/-- C2, counterexample: an entry whose `nextRunAt` equals the current
time is NOT dispatched by the tick, refuting "at or before": the
dispatch condition `now.After(state.nextRun)` is strict. -/
theorem c2_boundary_counterexample :
    cexState.nextRun ≤ 5 ∧
    (processTasks 5 (fun _ => some 60) [(1, cexState)]).2 = [] ∧
    (processTasks 5 (fun _ => some 60) [(1, cexState)]).1 = [(1, cexState)] := by
  refine ⟨by decide, ?_, ?_⟩ <;> rfl

/-- C2 (amended): on a tick, exactly the live entries whose `nextRunAt`
is strictly before the current time are dispatched, each at most once
per tick; every dispatched entry has `nextRunAt` advanced to
`now + interval` using its own interval, and an entry whose interval no
longer parses is dropped from the schedule; entries not yet due are kept
unchanged. -/
theorem c2_tick_dispatch (now : Int) (parse : String → Option Int)
    (tasks : List (Int × TaskState)) (id : Int) (st : TaskState)
    (hmem : (id, st) ∈ tasks) (hnodup : (tasks.map Prod.fst).Nodup) :
    ((processTasks now parse tasks).2 =
       (tasks.filter (fun p => decide (p.2.nextRun < now))).map (fun p => p.2.task)) ∧
    (st.nextRun < now → st.task ∈ (processTasks now parse tasks).2) ∧
    (lookupTask id (processTasks now parse tasks).1 =
       if st.nextRun < now then
         match parse st.task.every with
         | none => none
         | some d => some { st with nextRun := now + d }
       else some st) := by
  refine ⟨processTasks_dispatch now parse tasks, ?_,
    lookupTask_processTasks now parse tasks id st hmem hnodup⟩
  intro hdue
  rw [processTasks_dispatch now parse tasks]
  exact List.mem_map_of_mem _ (List.mem_filter.mpr ⟨hmem, by simpa using hdue⟩)

/-- Witness for C2 at a singleton schedule with a due entry. -/
theorem c2_tick_dispatch_witness :
    ((2 : Int), wState) ∈ [((2 : Int), wState)] ∧
    wState.task ∈ (processTasks 5 (fun _ => some 60) [((2 : Int), wState)]).2 ∧
    lookupTask 2 (processTasks 5 (fun _ => some 60) [((2 : Int), wState)]).1 =
      some { wState with nextRun := 65 } := by
  have h := c2_tick_dispatch 5 (fun _ => some 60) [((2 : Int), wState)] 2 wState
    (by decide) (by decide)
  refine ⟨by decide, h.2.1 (by decide), ?_⟩
  rw [h.2.2]
  decide

/-- C3: during reconciliation, a current record with no existing live
entry gets a new schedule entry with `nextRunAt` equal to the
reconciliation time plus its parsed interval; if its interval string does
not parse, no entry is created and reconciliation (a total function)
continues with the task left unscheduled. -/
theorem c3_new_record_entry (now : Int) (parse : String → Option Int)
    (records : List Task) (live : List (Int × TaskState)) (r : Task)
    (hr : r ∈ records) (hnodup : (records.map Task.id).Nodup)
    (hnew : lookupTask r.id live = none) :
    lookupTask r.id (loadTasksMerge now parse records live) =
      match parse r.every with
      | none => none
      | some d => some ⟨r, now + d⟩ := by
  rw [lookupTask_loadTasksMerge_mem now parse records live r hr hnodup, hnew]

/-- Witness for C3: a fresh record is scheduled at `now + interval`. -/
theorem c3_new_record_entry_witness :
    lookupTask wTask.id (loadTasksMerge 100 (fun _ => some 60) [wTask] []) =
      some ⟨wTask, 160⟩ := by
  have h := c3_new_record_entry 100 (fun _ => some 60) [wTask] [] wTask
    (by decide) (by decide) rfl
  rw [h]
  decide

/-- C4: when reconciliation sees a record whose ID already has a live
entry, the stored record fields are replaced in place and `nextRunAt` is
left unchanged — for any parse function, so a changed interval string
does not alter the pending `nextRunAt`; the second conjunct shows the
new interval taking effect only when `nextRunAt` is next advanced at
dispatch. -/
theorem c4_existing_entry_update (now : Int) (parse parse2 : String → Option Int)
    (records : List Task) (live : List (Int × TaskState)) (r : Task)
    (st : TaskState) (hr : r ∈ records) (hnodup : (records.map Task.id).Nodup)
    (hex : lookupTask r.id live = some st) :
    lookupTask r.id (loadTasksMerge now parse records live) =
      some ⟨r, st.nextRun⟩ ∧
    (∀ now2 d, st.nextRun < now2 → parse2 r.every = some d →
       lookupTask r.id (processTasks now2 parse2 [(r.id, ⟨r, st.nextRun⟩)]).1 =
         some ⟨r, now2 + d⟩) := by
  constructor
  · rw [lookupTask_loadTasksMerge_mem now parse records live r hr hnodup, hex]
  · intro now2 d hlt hp
    simp [processTasks, hlt, hp, lookupTask]

/-- Witness for C4: an interval edit (from "1m" to "2m") keeps the
pending `nextRunAt` of 7. -/
theorem c4_existing_entry_update_witness :
    lookupTask wTask.id
        (loadTasksMerge 100 (fun _ => some 60) [wTask]
          [(wTask.id, ⟨cexTask, 7⟩)]) =
      some ⟨wTask, 7⟩ :=
  (c4_existing_entry_update 100 (fun _ => some 60) (fun _ => some 60) [wTask]
    [(wTask.id, ⟨cexTask, 7⟩)] wTask ⟨cexTask, 7⟩ (by decide) (by decide) rfl).1

/-- C5: after reconciliation, every live entry whose ID is absent from
the current record set has been removed — no entry with that ID remains —
and every execution dispatched by any subsequent tick originates from an
entry with a different ID. -/
theorem c5_removed_entry (now : Int) (parse : String → Option Int)
    (records : List Task) (live : List (Int × TaskState)) (id : Int)
    (habs : ∀ t ∈ records, t.id ≠ id) :
    lookupTask id (loadTasksMerge now parse records live) = none ∧
    (∀ st, (id, st) ∉ loadTasksMerge now parse records live) ∧
    (∀ now2 parse2 t,
       t ∈ (processTasks now2 parse2 (loadTasksMerge now parse records live)).2 →
       ∃ k st, (k, st) ∈ loadTasksMerge now parse records live ∧
         k ≠ id ∧ st.task = t) := by
  have h1 : lookupTask id (loadTasksMerge now parse records live) = none :=
    lookupTask_loadTasksMerge_absent now parse records live id habs
  refine ⟨h1, not_mem_of_lookupTask_eq_none id _ h1, ?_⟩
  intro now2 parse2 t ht
  rw [processTasks_dispatch] at ht
  rcases List.mem_map.mp ht with ⟨p, hp, hpt⟩
  obtain ⟨k, st⟩ := p
  rcases List.mem_filter.mp hp with ⟨hpmem, _⟩
  refine ⟨k, st, hpmem, ?_, hpt⟩
  intro he
  cases he
  exact not_mem_of_lookupTask_eq_none id _ h1 st hpmem

/-- Witness for C5: deleting the only record empties the schedule. -/
theorem c5_removed_entry_witness :
    lookupTask 1 (loadTasksMerge 100 (fun _ => some 60) [wTask]
        [((1 : Int), cexState)]) = none :=
  (c5_removed_entry 100 (fun _ => some 60) [wTask] [((1 : Int), cexState)] 1
    (by decide)).1

end Commitmonk
